import Mathlib

/-!
Verification development for the LocalVault browser-local password manager
(`script.js` and its revised variant). The JavaScript code is shallowly
embedded: JS strings are Lean `String`s manipulated through their `List Char`
data, JS dynamic values are `JsValue`, JS objects are `RawRecord` association
lists, and the IndexedDB object store (created with key path `id` and
`autoIncrement`) is `IDBStore`. Asynchronous completion is modelled by
returning the final value of each operation; machine integers are `Int`.

Two variants of the CSV codec exist in the sources: the naive parser of
`script.js` (`parseCSVNaive` here) and the robust RFC4180-style parser and
escaper of the revised file (`parseCSV`, `csvEscape` here). Both are embedded.
-/

namespace LocalVault

/-! ### JavaScript string primitives (on `List Char`) -/

/-- Strict lexicographic order on character lists by code point, the order JS
uses for `valA < valB` on strings (code-unit comparison; identical on the BMP
characters exercised here). A proper prefix is smaller. -/
def lexLtB : List Char → List Char → Bool
  | [], [] => false
  | [], _ :: _ => true
  | _ :: _, [] => false
  | a :: as, b :: bs =>
    if a.toNat < b.toNat then true
    else if b.toNat < a.toNat then false
    else lexLtB as bs

/-- JS `a < b` on strings. -/
def strLtB (a b : String) : Bool := lexLtB a.data b.data

/-- JS `String.prototype.toLowerCase`, modelled per-character. -/
def jsToLower (s : String) : String := String.mk (s.data.map Char.toLower)

/-- Drop leading and trailing whitespace from a character list. -/
def trimChars (l : List Char) : List Char :=
  ((l.dropWhile Char.isWhitespace).reverse.dropWhile Char.isWhitespace).reverse

/-- JS `String.prototype.trim` (whitespace modelled by `Char.isWhitespace`). -/
def jsTrim (s : String) : String := String.mk (trimChars s.data)

/-- JS `String.prototype.split` with a single-character separator: separators
are dropped, empty segments are kept, and the empty string yields `[[]]`. -/
def splitOnChar (c : Char) (l : List Char) : List (List Char) :=
  List.splitOnP (fun a => a == c) l

/-- Does `needle` occur as a contiguous run inside `hay`? (JS
`String.prototype.includes`.) -/
def listIncl (needle : List Char) : List Char → Bool
  | [] => needle.isEmpty
  | h :: t => needle.isPrefixOf (h :: t) || listIncl needle t

/-- JS `hay.includes(pat)`. -/
def strIncludes (hay pat : String) : Bool := listIncl pat.data hay.data

/-- JS `Array.prototype.join(sep)` on an array of strings. -/
def joinSep (sep : String) : List String → String
  | [] => ""
  | [x] => x
  | x :: y :: xs => x ++ sep ++ joinSep sep (y :: xs)

/-! ### JavaScript values and objects -/

/-- The JS values the vault manipulates: strings, numbers (the integral ones
that occur: ids and timestamps), booleans, `null` and `undefined`. `Date`
values are represented by their integral timestamp. -/
inductive JsValue where
  | vStr (s : String)
  | vNum (n : Int)
  | vBool (b : Bool)
  | vNull
  | vUndefined
  deriving DecidableEq

/-- JS truthiness: `''`, `0`, `false`, `null`, `undefined` are falsy. -/
def jsTruthy : JsValue → Bool
  | .vStr s => !(s = "")
  | .vNum n => !(n = 0)
  | .vBool b => b
  | .vNull => false
  | .vUndefined => false

/-- JS string coercion (`v + ''` / `String(v)`). -/
def jsToString : JsValue → String
  | .vStr s => s
  | .vNum n => toString n
  | .vBool true => "true"
  | .vBool false => "false"
  | .vNull => "null"
  | .vUndefined => "undefined"

/-- JS strict equality `===` on the embedded values. -/
def jsStrictEq : JsValue → JsValue → Bool
  | .vStr a, .vStr b => a == b
  | .vNum a, .vNum b => a == b
  | .vBool a, .vBool b => a == b
  | .vNull, .vNull => true
  | .vUndefined, .vUndefined => true
  | _, _ => false

/-- A JS object: an association list of property names to values, first
occurrence authoritative (property names are kept unique by `setProp`). -/
abbrev RawRecord := List (String × JsValue)

/-- JS property read `r[k]`: an absent property reads as `undefined`. -/
def getProp (r : RawRecord) (k : String) : JsValue :=
  match r.find? (fun p => p.1 == k) with
  | some p => p.2
  | none => .vUndefined

/-- JS property write `r[k] = v`: overwrites in place an existing property
(keeping its position, as JS objects do) or appends a new one. -/
def setProp : RawRecord → String → JsValue → RawRecord
  | [], k, v => [(k, v)]
  | (k', v') :: r, k, v =>
    if k' == k then (k, v) :: r else (k', v') :: setProp r k v

/-- Build the object `{headers[j]: values[j]}` the CSV parsers construct, by
successive assignments (a duplicated header overwrites, as in JS). -/
def mkRecord (headers values : List String) : RawRecord :=
  (headers.zip values).foldl (fun r p => setProp r p.1 (.vStr p.2)) []

/-! ### CSV codec (robust variant of the revised file) -/

/-- `csv.replace(/\r\n/g, '\n').replace(/\r/g, '\n')`: every CRLF, then every
remaining CR, becomes LF. -/
def normalizeNewlines : List Char → List Char
  | [] => []
  | '\r' :: '\n' :: rest => '\n' :: normalizeNewlines rest
  | '\r' :: rest => '\n' :: normalizeNewlines rest
  | c :: rest => c :: normalizeNewlines rest

/-- Scanner state for the quoted-field row parser: outside quotes, inside
quotes, or just past a quote character seen inside quotes (the JS code's
one-character lookahead `row[i + 1] === '"'`, unrolled into a state so each
step consumes one character). -/
inductive CsvScanState where
  | outside
  | inside
  | quoteSeen
  deriving DecidableEq

/-- The quoted-field row scanner `parseRow` of the robust parser: arguments
are the field accumulated so far, the scanner state, and the remaining input.
Inside quotes a doubled quote emits one quote and a lone quote closes the
quoted run; outside quotes a quote opens one and a comma ends the field. -/
def parseRowAux : List Char → CsvScanState → List Char → List (List Char)
  | cur, _, [] => [cur]
  | cur, .inside, c :: rest =>
    if c = '"' then parseRowAux cur .quoteSeen rest
    else parseRowAux (cur ++ [c]) .inside rest
  | cur, .quoteSeen, c :: rest =>
    if c = '"' then parseRowAux (cur ++ ['"']) .inside rest
    else if c = ',' then cur :: parseRowAux [] .outside rest
    else parseRowAux (cur ++ [c]) .outside rest
  | cur, .outside, c :: rest =>
    if c = '"' then parseRowAux cur .inside rest
    else if c = ',' then cur :: parseRowAux [] .outside rest
    else parseRowAux (cur ++ [c]) .outside rest

/-- Split one CSV row into its fields. -/
def parseRow (row : List Char) : List String :=
  (parseRowAux [] .outside row).map String.mk

/-- `line.trim() === ''`. -/
def isBlankLine (l : List Char) : Bool := trimChars l == []

/-- The robust `parseCSV` of the revised file: normalize line endings, skip
leading blank lines, take the first non-blank line as (trimmed) headers, parse
each non-blank data row with the quoted-field scanner, and keep exactly the
rows whose field count matches the header count. -/
def parseCSV (csv : String) : List RawRecord :=
  if csv = "" then []
  else
    let lines := splitOnChar '\n' (normalizeNewlines csv.data)
    match lines.dropWhile isBlankLine with
    | [] => []
    | headerLine :: dataLines =>
      let headers := (parseRow headerLine).map jsTrim
      dataLines.filterMap (fun line =>
        if isBlankLine line then none
        else
          let values := parseRow line
          if values.length = headers.length then some (mkRecord headers values)
          else none)

/-- The naive `parseCSV` of `script.js`: split on LF, split each line on
commas with no quote handling, trim every header and every field value, and
keep the rows whose field count matches the header count. -/
def parseCSVNaive (csv : String) : List RawRecord :=
  match splitOnChar '\n' csv.data with
  | [] => []
  | headerLine :: dataLines =>
    let headers := (splitOnChar ',' headerLine).map (fun f => jsTrim (String.mk f))
    dataLines.filterMap (fun line =>
      let values := (splitOnChar ',' line).map (fun f => jsTrim (String.mk f))
      if values.length = headers.length then some (mkRecord headers values)
      else none)

/-- Does the string contain a quote, comma, or newline? (the `csvEscape`
quoting test). -/
def hasCsvSpecial (s : String) : Bool :=
  s.data.contains '"' || s.data.contains ',' || s.data.contains '\n'

/-- `s.replace(/"/g, '""')`: double every quote character. -/
def doubleQuoteChars : List Char → List Char
  | [] => []
  | '"' :: rest => '"' :: '"' :: doubleQuoteChars rest
  | c :: rest => c :: doubleQuoteChars rest

/-- `csvEscape` of the revised file: `null`/`undefined` become the empty
string; otherwise the value is stringified and wrapped in quotes with internal
quotes doubled exactly when it contains a quote, comma, or newline. -/
def csvEscape (v : JsValue) : String :=
  match v with
  | .vNull => ""
  | .vUndefined => ""
  | v =>
    let s := jsToString v
    if hasCsvSpecial s then String.mk ('"' :: (doubleQuoteChars s.data ++ ['"']))
    else s

/-- Outcome of the CSV export: the "No passwords to export" refusal, or the
text of the produced file. -/
inductive CsvExportResult where
  | noPasswords
  | file (content : String)
  deriving DecidableEq

/-- One exported CSV data row: the three fields, escaped and comma-joined. -/
def csvRowFor (r : RawRecord) : String :=
  joinSep "," (["website", "username", "password"].map (fun f => csvEscape (getProp r f)))

/-- `exportToCSV` of the revised file: refuse on an empty cache, else emit the
header row and one escaped row per entry, CRLF-joined. -/
def exportToCSV (cache : List RawRecord) : CsvExportResult :=
  if cache.isEmpty then .noPasswords
  else .file (joinSep "\r\n" (joinSep "," ["website", "username", "password"] :: cache.map csvRowFor))

/-- Outcome of the JSON export; the serialized text is abstracted by the list
of records it serializes (`JSON.stringify(currentPasswords, null, 2)`). -/
inductive JsonExportResult where
  | noPasswords
  | file (records : List RawRecord)
  deriving DecidableEq

/-- `exportPasswords`: refuse on an empty cache, else produce the JSON file of
the whole cache. -/
def exportPasswords (cache : List RawRecord) : JsonExportResult :=
  if cache.isEmpty then .noPasswords else .file cache

/-! ### Sorting (List Transform Layer) -/

inductive SortDir where
  | asc
  | desc
  deriving DecidableEq

/-- Clicking the already-active column flips the direction. -/
def toggleDir : SortDir → SortDir
  | .asc => .desc
  | .desc => .asc

/-- The comparator's key: `((v || '') + '').toLowerCase()` — a falsy value is
replaced by `''`, the result is string-coerced, then lowercased. -/
def sortKeyStr (v : JsValue) : String :=
  jsToLower (jsToString (if jsTruthy v then v else .vStr ""))

/-- Sort key of an entry for a column: `((a[sortColumn] || '') + '').toLowerCase()`. -/
def sortKey (col : String) (r : RawRecord) : String := sortKeyStr (getProp r col)

/-- The JS comparator of `sortAndRenderPasswords`: `1` if `valA > valB`, `-1`
if `valA < valB`, else `0`, negated for descending order. -/
def jsCompare (col : String) (dir : SortDir) (a b : RawRecord) : Int :=
  let valA := sortKey col a
  let valB := sortKey col b
  let comparison : Int := if strLtB valB valA then 1 else if strLtB valA valB then -1 else 0
  match dir with
  | .desc => -comparison
  | .asc => comparison

/-- The non-strict order the comparator induces: `a` may come before `b`. -/
def recLe (col : String) (dir : SortDir) (a b : RawRecord) : Bool :=
  decide (jsCompare col dir a b ≤ 0)

/-- Stable insertion into a run ordered by `le`. -/
def insertBy {α : Type} (le : α → α → Bool) (x : α) : List α → List α
  | [] => [x]
  | y :: ys => if le x y then x :: y :: ys else y :: insertBy le x ys

/-- Stable insertion sort. `Array.prototype.sort` is required by ECMAScript to
be stable, and for a consistent comparator the stable sorted order is unique,
so this realizes exactly the order the JS sort produces. -/
def sortBy {α : Type} (le : α → α → Bool) : List α → List α
  | [] => []
  | x :: xs => insertBy le x (sortBy le xs)

/-- `sortAndRenderPasswords`, restricted to its effect on the cache: sort the
cache in place with the comparator for the current column and direction. -/
def sortPasswords (col : String) (dir : SortDir) (cache : List RawRecord) : List RawRecord :=
  sortBy (recLe col dir) cache

/-! ### Filtering -/

/-- JS `v || ''`. -/
def jsOrEmptyStr (v : JsValue) : JsValue := if jsTruthy v then v else .vStr ""

/-- Read a value as the string `toLowerCase` is invoked on. On the string
values the vault stores this is exact; a truthy non-string (on which JS would
throw) is totalized by string coercion. -/
def asJsString : JsValue → String
  | .vStr s => s
  | v => jsToString v

/-- One entry's test in `filterPasswords`:
`(entry.website || '').toLowerCase().includes(term) || (entry.username || '').toLowerCase().includes(term)`. -/
def filterMatch (t : String) (r : RawRecord) : Bool :=
  strIncludes (jsToLower (asJsString (jsOrEmptyStr (getProp r "website")))) t ||
  strIncludes (jsToLower (asJsString (jsOrEmptyStr (getProp r "username")))) t

/-- `filterPasswords`, as (new cache state, rendered list): a term that trims
to empty falls through to `sortAndRenderPasswords` (which re-sorts the cache
in place and renders it); otherwise the cache is left untouched and a derived
filtered list is rendered. -/
def filterPasswords (term col : String) (dir : SortDir) (cache : List RawRecord) :
    List RawRecord × List RawRecord :=
  let t := jsTrim (jsToLower term)
  if t = "" then
    let sorted := sortPasswords col dir cache
    (sorted, sorted)
  else
    (cache, cache.filter (filterMatch t))

/-! ### IndexedDB object store (key path `id`, `autoIncrement: true`) -/

/-- An IndexedDB key as used here: a number or a string. -/
inductive IDBKey where
  | num (n : Int)
  | str (s : String)
  deriving DecidableEq

/-- The `passwords` object store: its records in insertion order, keyed, plus
the current state of the key generator. -/
structure IDBStore where
  recs : List (IDBKey × RawRecord)
  keyGen : Int
  deriving DecidableEq

def emptyStore : IDBStore := ⟨[], 1⟩

def hasKey (st : IDBStore) (k : IDBKey) : Bool :=
  st.recs.any (fun p => p.1 == k)

def lookupKey (st : IDBStore) (k : IDBKey) : Option RawRecord :=
  (st.recs.find? (fun p => p.1 == k)).map (fun p => p.2)

/-- Result of evaluating the key path `id` against a value, per the IndexedDB
storing algorithm: an absent or `undefined` property defers to the key
generator, a number or string is used as the record's in-line key, and any
other value is not a valid key. -/
inductive KeyPathEval where
  | generated
  | useKey (k : IDBKey)
  | invalid
  deriving DecidableEq

def evalKeyPath (r : RawRecord) : KeyPathEval :=
  match getProp r "id" with
  | .vUndefined => .generated
  | .vNum n => .useKey (.num n)
  | .vStr s => .useKey (.str s)
  | .vNull => .invalid
  | .vBool _ => .invalid

/-- Storing a record under an explicit numeric key at or above the generator
advances the generator past it; string keys leave it unchanged. -/
def bumpGen (g : Int) (k : IDBKey) : Int :=
  match k with
  | .num n => if n + 1 > g then n + 1 else g
  | .str _ => g

inductive StoreErr where
  | constraintError
  | dataError
  deriving DecidableEq

instance {ε α : Type} [DecidableEq ε] [DecidableEq α] : DecidableEq (Except ε α) :=
  fun a b =>
    match a, b with
    | .ok x, .ok y => decidable_of_iff (x = y) (by simp)
    | .error x, .error y => decidable_of_iff (x = y) (by simp)
    | .ok _, .error _ => isFalse (by simp)
    | .error _, .ok _ => isFalse (by simp)

/-- `store.add(r)`: an in-line key, when present, is used (a duplicate is a
`ConstraintError`); with no in-line key the generator assigns the next key and
injects it into the stored value at the key path. -/
def addRecord (st : IDBStore) (r : RawRecord) : Except StoreErr IDBStore :=
  match evalKeyPath r with
  | .generated =>
    let k := IDBKey.num st.keyGen
    if hasKey st k then .error .constraintError
    else .ok ⟨st.recs ++ [(k, setProp r "id" (.vNum st.keyGen))], st.keyGen + 1⟩
  | .useKey k =>
    if hasKey st k then .error .constraintError
    else .ok ⟨st.recs ++ [(k, r)], bumpGen st.keyGen k⟩
  | .invalid => .error .dataError

/-- `store.put(r)`: like `add` but an existing record at the key is replaced
wholesale (upsert). -/
def putRecord (st : IDBStore) (r : RawRecord) : Except StoreErr IDBStore :=
  match evalKeyPath r with
  | .generated =>
    .ok ⟨st.recs ++ [(IDBKey.num st.keyGen, setProp r "id" (.vNum st.keyGen))], st.keyGen + 1⟩
  | .useKey k =>
    if hasKey st k then
      .ok ⟨st.recs.map (fun p => if p.1 == k then (k, r) else p), bumpGen st.keyGen k⟩
    else .ok ⟨st.recs ++ [(k, r)], bumpGen st.keyGen k⟩
  | .invalid => .error .dataError

/-- IndexedDB key order over the keys used here: numbers before strings,
numbers by value, strings lexicographically. -/
def keyLeB : IDBKey → IDBKey → Bool
  | .num a, .num b => decide (a ≤ b)
  | .num _, .str _ => true
  | .str _, .num _ => false
  | .str a, .str b => !(strLtB b a)

/-- `store.getAll()`: every record, in ascending key order. -/
def getAllRecords (st : IDBStore) : List RawRecord :=
  (sortBy (fun p q => keyLeB p.1 q.1) st.recs).map (fun p => p.2)

/-! ### CRUD service and import -/

/-- `currentPasswords.findIndex(p => p.id === entry.id)` followed by
`currentPasswords[index] = entry`: replace the first entry with strictly-equal
`id`, or leave the list unchanged when there is none. -/
def replaceById (entry : RawRecord) : List RawRecord → List RawRecord
  | [] => []
  | r :: rs =>
    if jsStrictEq (getProp r "id") (getProp entry "id") then entry :: rs
    else r :: replaceById entry rs

/-- `updatePassword(entry)`: optimistically overwrite the cache slot whose
`id` matches (if any), then unconditionally issue `store.put(entry)`. The
result is the new cache and the outcome of the put. -/
def updatePassword (entry : RawRecord) (cache : List RawRecord) (st : IDBStore) :
    List RawRecord × Except StoreErr IDBStore :=
  (replaceById entry cache, putRecord st entry)

/-- The import validation `p.website && p.username && p.password`. -/
def validRecord (p : RawRecord) : Bool :=
  jsTruthy (getProp p "website") && jsTruthy (getProp p "username") &&
    jsTruthy (getProp p "password")

inductive ImportOutcome where
  | noValidEntries
  | importError
  | success (n : Nat)
  deriving DecidableEq

/-- Add each record in one readwrite transaction; a failing add aborts the
transaction, rolling every add back. -/
def addAll (st : IDBStore) : List RawRecord → Except StoreErr IDBStore
  | [] => .ok st
  | r :: rs =>
    match addRecord st r with
    | .ok st' => addAll st' rs
    | .error e => .error e

/-- The import pipeline from parsed candidate records (`importPasswords` /
`importPasswordsFromEvent` after `JSON.parse`/`parseCSV`): filter to valid
records; with none, report "no valid entries" touching nothing; otherwise add
them all in one transaction, and on completion reload the cache from the
store (`loadPasswords`), or on transaction error leave store and cache as
they were. -/
def importRecords (records : List RawRecord) (st : IDBStore) (cache : List RawRecord) :
    ImportOutcome × IDBStore × List RawRecord :=
  let valids := records.filter validRecord
  if valids.isEmpty then (.noValidEntries, st, cache)
  else
    match addAll st valids with
    | .ok st' => (.success valids.length, st', getAllRecords st')
    | .error _ => (.importError, st, cache)

/-- Generator invariant: every numeric key in the store is below the
generator. `add` and `put` both preserve it (they bump past explicit keys),
so it holds of every reachable store. -/
def genInv (st : IDBStore) : Prop :=
  ∀ p ∈ st.recs, ∀ n : Int, p.1 = .num n → n < st.keyGen

/-! ### Spec-side definitions (used only to state claims against the code) -/

/-- Sort key as claim C6 words it: a string field is lowercased, a missing or
non-string field is coerced to the empty string. -/
def claimedSortKey : JsValue → String
  | .vStr s => jsToLower s
  | _ => ""

/-- No leading and no trailing whitespace. -/
def noEdgeWS (l : List Char) : Bool :=
  (match l.head? with
   | some c => !c.isWhitespace
   | none => true) &&
  (match l.getLast? with
   | some c => !c.isWhitespace
   | none => true)

/-! ### Concrete example data -/

def exQuotedCsv : String := "website,username,password\nExample.com,\"user,one\",\"pa\"\"ss\""

def exQuotedRecord : RawRecord :=
  [("website", .vStr "Example.com"), ("username", .vStr "user,one"),
   ("password", .vStr "pa\"ss")]

def exEntry1 : RawRecord :=
  [("id", .vNum 1), ("website", .vStr "a.com"), ("username", .vStr "u"),
   ("password", .vStr "p")]

def exRecord42 : RawRecord :=
  [("id", .vNum 42), ("website", .vStr "w"), ("username", .vStr "u"),
   ("password", .vStr "p")]

def exTie1 : RawRecord :=
  [("id", .vNum 1), ("website", .vStr "a.com"), ("username", .vStr "u1"),
   ("password", .vStr "p1")]

def exTie2 : RawRecord :=
  [("id", .vNum 2), ("website", .vStr "a.com"), ("username", .vStr "u2"),
   ("password", .vStr "p2")]

def exWebB : RawRecord :=
  [("id", .vNum 2), ("website", .vStr "b.com"), ("username", .vStr "u2"),
   ("password", .vStr "p2")]

def exInvalidRecord : RawRecord :=
  [("website", .vStr ""), ("username", .vStr "u"), ("password", .vStr "p")]

def exNaiveCsv : String := "website,username,password\na.com, alice ,  pw "

def exNaiveRecord : RawRecord :=
  [("website", .vStr "a.com"), ("username", .vStr "alice"), ("password", .vStr "pw")]

/-! ### Order lemmas for the string comparison -/

theorem char_toNat_inj {a b : Char} (h : a.toNat = b.toNat) : a = b := by
  cases a with | mk av avalid => ?_
  cases b with | mk bv bvalid => ?_
  simp only [Char.toNat] at h
  congr 1
  cases av
  cases bv
  simp only [UInt32.toNat, UInt32.toBitVec] at h
  congr 1
  exact BitVec.toNat_injective h

theorem string_data_inj {a b : String} (h : a.data = b.data) : a = b := by
  cases a
  cases b
  simp_all

theorem lexLtB_irrefl (l : List Char) : lexLtB l l = false := by
  induction l with
  | nil => rfl
  | cons a as ih => simp [lexLtB, ih]

theorem lexLtB_asymm : ∀ {x y : List Char}, lexLtB x y = true → lexLtB y x = false
  | [], [], h => by simp [lexLtB] at h
  | [], _ :: _, _ => rfl
  | _ :: _, [], h => by simp [lexLtB] at h
  | a :: as, b :: bs, h => by
    simp only [lexLtB] at h ⊢
    by_cases h1 : a.toNat < b.toNat
    · have h2 : ¬ b.toNat < a.toNat := by omega
      simp [h1, h2]
    · by_cases h2 : b.toNat < a.toNat
      · simp [h1, h2] at h
      · simp only [h1, h2, if_false] at h ⊢
        exact lexLtB_asymm h

theorem lexLtB_connex : ∀ {x y : List Char},
    lexLtB x y = false → lexLtB y x = false → x = y
  | [], [], _, _ => rfl
  | [], _ :: _, h1, _ => by simp [lexLtB] at h1
  | _ :: _, [], _, h2 => by simp [lexLtB] at h2
  | a :: as, b :: bs, h1, h2 => by
    simp only [lexLtB] at h1 h2
    by_cases hab : a.toNat < b.toNat
    · simp [hab] at h1
    · by_cases hba : b.toNat < a.toNat
      · simp [hba] at h2
      · simp only [hab, hba, if_false] at h1 h2
        have : a = b := char_toNat_inj (by omega)
        rw [this, lexLtB_connex h1 h2]

theorem lexLtB_trans : ∀ {x y z : List Char},
    lexLtB x y = true → lexLtB y z = true → lexLtB x z = true
  | [], _ :: _, [], _, h2 => by simp [lexLtB] at h2
  | [], _ :: _, _ :: _, _, _ => rfl
  | [], [], _, h1, _ => by simp [lexLtB] at h1
  | _ :: _, [], _, h1, _ => by simp [lexLtB] at h1
  | _ :: _, _ :: _, [], _, h2 => by simp [lexLtB] at h2
  | a :: as, b :: bs, c :: cs, h1, h2 => by
    simp only [lexLtB] at h1 h2 ⊢
    by_cases hab : a.toNat < b.toNat
    · by_cases hbc : b.toNat < c.toNat
      · simp [show a.toNat < c.toNat by omega]
      · by_cases hcb : c.toNat < b.toNat
        · simp [hab, hbc, hcb] at h2
        · simp [show a.toNat < c.toNat by omega]
    · by_cases hba : b.toNat < a.toNat
      · simp [hab, hba] at h1
      · have heq : a.toNat = b.toNat := by omega
        simp only [hab, hba, if_false] at h1
        by_cases hbc : b.toNat < c.toNat
        · simp [heq ▸ hbc]
        · by_cases hcb : c.toNat < b.toNat
          · simp [hbc, hcb] at h2
          · simp only [hbc, hcb, if_false] at h2
            simp only [heq ▸ hbc, heq ▸ hcb, if_false]
            exact lexLtB_trans h1 h2

theorem strLtB_irrefl (s : String) : strLtB s s = false := lexLtB_irrefl s.data

theorem strLtB_asymm {x y : String} (h : strLtB x y = true) : strLtB y x = false :=
  lexLtB_asymm h

theorem strLtB_connex {x y : String} (h1 : strLtB x y = false) (h2 : strLtB y x = false) :
    x = y :=
  string_data_inj (lexLtB_connex h1 h2)

theorem strLtB_trans {x y z : String} (h1 : strLtB x y = true) (h2 : strLtB y z = true) :
    strLtB x z = true :=
  lexLtB_trans h1 h2

/-! ### Generic lemmas about the stable insertion sort -/

theorem insertBy_perm {α : Type} (le : α → α → Bool) (x : α) (l : List α) :
    (insertBy le x l).Perm (x :: l) := by
  induction l with
  | nil => exact List.Perm.refl _
  | cons y ys ih =>
    simp only [insertBy]
    by_cases h : le x y
    · simp [h]
    · simp only [if_neg h]
      exact (ih.cons y).trans (List.Perm.swap x y ys)

theorem sortBy_perm {α : Type} (le : α → α → Bool) (l : List α) :
    (sortBy le l).Perm l := by
  induction l with
  | nil => exact List.Perm.refl _
  | cons x xs ih => exact (insertBy_perm le x (sortBy le xs)).trans (ih.cons x)

theorem pairwise_insertBy {α : Type} {le : α → α → Bool}
    (htot : ∀ a b, le a b = true ∨ le b a = true)
    (htrans : ∀ a b c, le a b = true → le b c = true → le a c = true)
    (x : α) {l : List α} (h : l.Pairwise (fun a b => le a b = true)) :
    (insertBy le x l).Pairwise (fun a b => le a b = true) := by
  induction l with
  | nil => simp [insertBy]
  | cons y ys ih =>
    cases h with
    | cons hy hys =>
      simp only [insertBy]
      by_cases hxy : le x y = true
      · rw [if_pos hxy]
        refine List.Pairwise.cons ?_ (List.Pairwise.cons hy hys)
        intro z hz
        rcases List.mem_cons.mp hz with hz | hz
        · exact hz ▸ hxy
        · exact htrans x y z hxy (hy z hz)
      · rw [if_neg hxy]
        refine List.Pairwise.cons ?_ (ih hys)
        intro z hz
        rcases List.mem_cons.mp ((insertBy_perm le x ys).mem_iff.mp hz) with hz | hz
        · rw [hz]
          rcases htot x y with h | h
          · exact absurd h hxy
          · exact h
        · exact hy z hz

theorem sortBy_pairwise {α : Type} {le : α → α → Bool}
    (htot : ∀ a b, le a b = true ∨ le b a = true)
    (htrans : ∀ a b c, le a b = true → le b c = true → le a c = true)
    (l : List α) : (sortBy le l).Pairwise (fun a b => le a b = true) := by
  induction l with
  | nil => simp [sortBy]
  | cons x xs ih => exact pairwise_insertBy htot htrans x ih

theorem sortBy_of_pairwise {α : Type} {le : α → α → Bool} {l : List α}
    (h : l.Pairwise (fun a b => le a b = true)) : sortBy le l = l := by
  induction l with
  | nil => rfl
  | cons x xs ih =>
    cases h with
    | cons hx hxs =>
      simp only [sortBy, ih hxs]
      cases xs with
      | nil => rfl
      | cons y ys => simp [insertBy, hx y (by simp)]

theorem insertBy_append {α : Type} {le : α → α → Bool} {x : α} {l : List α}
    (h : ∀ y ∈ l, le x y = false) : insertBy le x l = l ++ [x] := by
  induction l with
  | nil => rfl
  | cons y ys ih =>
    have hy : le x y = false := h y (by simp)
    simp only [insertBy, hy, Bool.false_eq_true, if_false, List.cons_append]
    rw [ih (fun z hz => h z (by simp [hz]))]

theorem sortBy_rev {α : Type} {le : α → α → Bool} {l : List α}
    (h : l.Pairwise (fun a b => le a b = false)) : sortBy le l = l.reverse := by
  induction l with
  | nil => rfl
  | cons x xs ih =>
    cases h with
    | cons hx hxs =>
      simp only [sortBy, ih hxs, List.reverse_cons]
      exact insertBy_append (fun y hy => hx y (List.mem_reverse.mp hy))

theorem filter_insertBy {α K : Type} [DecidableEq K] {le : α → α → Bool} (keyf : α → K)
    (hk : ∀ a b, le a b = false → keyf a ≠ keyf b) (x : α) (k : K) (l : List α) :
    (insertBy le x l).filter (fun e => decide (keyf e = k)) =
      ((x :: l).filter (fun e => decide (keyf e = k))) := by
  induction l with
  | nil => rfl
  | cons y ys ih =>
    simp only [insertBy]
    by_cases hxy : le x y = true
    · simp [hxy]
    · have hxy' : le x y = false := by
        simp only [Bool.not_eq_true] at hxy
        exact hxy
      have hne : keyf x ≠ keyf y := hk x y hxy'
      rw [if_neg hxy]
      by_cases hx : keyf x = k
      · have hy : ¬ keyf y = k := fun hyk => hne (hx.trans hyk.symm)
        simp [List.filter_cons, hx, hy, ih]
      · simp [List.filter_cons, hx, ih]

theorem sortBy_filter_key {α K : Type} [DecidableEq K] {le : α → α → Bool} (keyf : α → K)
    (hk : ∀ a b, le a b = false → keyf a ≠ keyf b) (k : K) (l : List α) :
    (sortBy le l).filter (fun e => decide (keyf e = k)) =
      l.filter (fun e => decide (keyf e = k)) := by
  induction l with
  | nil => rfl
  | cons x xs ih =>
    simp only [sortBy]
    rw [filter_insertBy keyf hk x k, List.filter_cons, List.filter_cons, ih]

/-! ### Properties of the JS comparator -/

theorem recLe_asc (col : String) (a b : RawRecord) :
    recLe col .asc a b = !strLtB (sortKey col b) (sortKey col a) := by
  simp only [recLe, jsCompare]
  by_cases h1 : strLtB (sortKey col b) (sortKey col a) = true
  · simp [h1]
  · rw [Bool.not_eq_true] at h1
    by_cases h2 : strLtB (sortKey col a) (sortKey col b) = true
    · simp [h1, h2]
    · rw [Bool.not_eq_true] at h2
      simp [h1, h2]

theorem recLe_desc (col : String) (a b : RawRecord) :
    recLe col .desc a b = !strLtB (sortKey col a) (sortKey col b) := by
  simp only [recLe, jsCompare]
  by_cases h1 : strLtB (sortKey col b) (sortKey col a) = true
  · simp [h1, strLtB_asymm h1]
  · rw [Bool.not_eq_true] at h1
    by_cases h2 : strLtB (sortKey col a) (sortKey col b) = true
    · simp [h1, h2]
    · rw [Bool.not_eq_true] at h2
      simp [h1, h2]

theorem strLtB_nottrans {x y z : String} (h1 : strLtB y x = false) (h2 : strLtB z y = false) :
    strLtB z x = false := by
  cases h3 : strLtB z x with
  | false => rfl
  | true =>
    exfalso
    cases h4 : strLtB y z with
    | true =>
      have := strLtB_trans h4 h3
      rw [this] at h1
      exact Bool.noConfusion h1
    | false =>
      have heq : y = z := strLtB_connex h4 h2
      rw [heq, h3] at h1
      exact Bool.noConfusion h1

theorem recLe_total (col : String) (dir : SortDir) (a b : RawRecord) :
    recLe col dir a b = true ∨ recLe col dir b a = true := by
  cases dir with
  | asc =>
    rw [recLe_asc, recLe_asc]
    by_cases h : strLtB (sortKey col b) (sortKey col a) = true
    · right
      rw [strLtB_asymm h]
      rfl
    · left
      rw [Bool.not_eq_true] at h
      rw [h]
      rfl
  | desc =>
    rw [recLe_desc, recLe_desc]
    by_cases h : strLtB (sortKey col a) (sortKey col b) = true
    · right
      rw [strLtB_asymm h]
      rfl
    · left
      rw [Bool.not_eq_true] at h
      rw [h]
      rfl

theorem recLe_trans (col : String) (dir : SortDir) (a b c : RawRecord)
    (h1 : recLe col dir a b = true) (h2 : recLe col dir b c = true) :
    recLe col dir a c = true := by
  cases dir with
  | asc =>
    rw [recLe_asc] at h1 h2 ⊢
    rw [Bool.not_eq_true'] at h1 h2 ⊢
    exact strLtB_nottrans h1 h2
  | desc =>
    rw [recLe_desc] at h1 h2 ⊢
    rw [Bool.not_eq_true'] at h1 h2 ⊢
    exact strLtB_nottrans h2 h1

theorem recLe_of_key_eq (col : String) (dir : SortDir) (a b : RawRecord)
    (h : sortKey col a = sortKey col b) : recLe col dir a b = true := by
  cases dir with
  | asc =>
    rw [recLe_asc, h, strLtB_irrefl]
    rfl
  | desc =>
    rw [recLe_desc, h, strLtB_irrefl]
    rfl

theorem recLe_key_ne (col : String) (dir : SortDir) (a b : RawRecord)
    (h : recLe col dir a b = false) : sortKey col a ≠ sortKey col b := by
  intro heq
  rw [recLe_of_key_eq col dir a b heq] at h
  exact Bool.noConfusion h

theorem recLe_toggle_false (col : String) (dir : SortDir) (a b : RawRecord)
    (hle : recLe col dir a b = true) (hne : sortKey col a ≠ sortKey col b) :
    recLe col (toggleDir dir) a b = false := by
  cases dir with
  | asc =>
    rw [recLe_asc, Bool.not_eq_true'] at hle
    show recLe col .desc a b = false
    rw [recLe_desc]
    cases h2 : strLtB (sortKey col a) (sortKey col b) with
    | true => rfl
    | false => exact absurd (strLtB_connex h2 hle) hne
  | desc =>
    rw [recLe_desc, Bool.not_eq_true'] at hle
    show recLe col .asc a b = false
    rw [recLe_asc]
    cases h2 : strLtB (sortKey col b) (sortKey col a) with
    | true => rfl
    | false => exact absurd (strLtB_connex hle h2) hne

/-! ### Store and CRUD helper lemmas -/

theorem replaceById_absent {entry : RawRecord} {cache : List RawRecord}
    (h : ∀ r ∈ cache, jsStrictEq (getProp r "id") (getProp entry "id") = false) :
    replaceById entry cache = cache := by
  induction cache with
  | nil => rfl
  | cons r rs ih =>
    have hr := h r (by simp)
    simp only [replaceById, hr, Bool.false_eq_true, if_false]
    rw [ih (fun q hq => h q (by simp [hq]))]

theorem find?_append_none {α : Type} (p : α → Bool) {l1 : List α} (h : l1.find? p = none)
    (l2 : List α) : (l1 ++ l2).find? p = l2.find? p := by
  rw [List.find?_append, h, Option.none_or]

theorem hasKey_false_find?_none {st : IDBStore} {k : IDBKey} (h : hasKey st k = false) :
    st.recs.find? (fun p => p.1 == k) = none := by
  apply List.find?_eq_none.mpr
  intro x hx hbeq
  simp only [hasKey, List.any_eq_false] at h
  exact h x hx hbeq

theorem find?_replace {recs : List (IDBKey × RawRecord)} {k : IDBKey} (entry : RawRecord)
    (h : recs.any (fun p => p.1 == k) = true) :
    (recs.map fun p => if p.1 == k then (k, entry) else p).find? (fun p => p.1 == k) =
      some (k, entry) := by
  induction recs with
  | nil => simp at h
  | cons q qs ih =>
    by_cases hq : (q.1 == k) = true
    · simp only [List.map_cons, if_pos hq]
      exact List.find?_cons_of_pos _ (by simp)
    · rw [Bool.not_eq_true] at hq
      simp only [List.any_cons, hq, Bool.false_or] at h
      simp only [List.map_cons, hq, Bool.false_eq_true, if_false]
      rw [List.find?_cons_of_neg _ (by simp [hq])]
      exact ih h

theorem putRecord_num {entry : RawRecord} {k : Int} (h : getProp entry "id" = .vNum k)
    (st : IDBStore) :
    ∃ st', putRecord st entry = .ok st' ∧ lookupKey st' (.num k) = some entry := by
  have hek : evalKeyPath entry = .useKey (.num k) := by simp [evalKeyPath, h]
  simp only [putRecord, hek]
  cases hk : hasKey st (.num k) with
  | true =>
    refine ⟨_, rfl, ?_⟩
    simp only [lookupKey, find?_replace entry hk]
    rfl
  | false =>
    refine ⟨_, rfl, ?_⟩
    simp only [lookupKey, find?_append_none _ (hasKey_false_find?_none hk)]
    simp [List.find?]

theorem genInv_hasKey {st : IDBStore} (h : genInv st) :
    hasKey st (.num st.keyGen) = false := by
  cases hk : hasKey st (.num st.keyGen) with
  | false => rfl
  | true =>
    exfalso
    simp only [hasKey, List.any_eq_true] at hk
    obtain ⟨p, hp, hbeq⟩ := hk
    have hpk : p.1 = .num st.keyGen := by
      exact eq_of_beq hbeq
    have := h p hp st.keyGen hpk
    exact lt_irrefl _ this

/-! ### Trimming and record-membership helper lemmas -/

theorem head?_dropWhile_not {α : Type} {p : α → Bool} :
    ∀ {l : List α} {c : α}, (l.dropWhile p).head? = some c → p c = false := by
  intro l
  induction l with
  | nil =>
    intro c h
    simp [List.dropWhile] at h
  | cons a t ih =>
    intro c h
    by_cases hp : p a = true
    · rw [List.dropWhile_cons, if_pos hp] at h
      exact ih h
    · rw [List.dropWhile_cons, if_neg hp] at h
      simp only [List.head?_cons, Option.some.injEq] at h
      rw [← h]
      rw [Bool.not_eq_true] at hp
      exact hp

theorem getLast?_dropWhile_of_ne_nil {α : Type} (p : α → Bool) (m : List α)
    (h : m.dropWhile p ≠ []) : (m.dropWhile p).getLast? = m.getLast? := by
  obtain ⟨t, ht⟩ := List.dropWhile_suffix (l := m) (p := p)
  have h1 : (t ++ m.dropWhile p).getLast? = (m.dropWhile p).getLast? :=
    List.getLast?_append_of_ne_nil t h
  rw [ht] at h1
  exact h1.symm

theorem noEdgeWS_trimChars (l : List Char) : noEdgeWS (trimChars l) = true := by
  unfold trimChars noEdgeWS
  cases hv : (l.dropWhile Char.isWhitespace).reverse.dropWhile Char.isWhitespace with
  | nil => simp
  | cons c cs =>
    have hc : c.isWhitespace = false := head?_dropWhile_not (by rw [hv]; rfl)
    have hvne : (l.dropWhile Char.isWhitespace).reverse.dropWhile Char.isWhitespace ≠ [] := by
      rw [hv]
      simp
    have hlast1 := getLast?_dropWhile_of_ne_nil Char.isWhitespace
      (l.dropWhile Char.isWhitespace).reverse hvne
    rw [List.getLast?_reverse] at hlast1
    cases hd : (l.dropWhile Char.isWhitespace).head? with
    | none =>
      exfalso
      have hu0 : l.dropWhile Char.isWhitespace = [] := by
        cases hu : l.dropWhile Char.isWhitespace with
        | nil => rfl
        | cons a as =>
          rw [hu] at hd
          exact Option.noConfusion hd
      rw [hu0] at hv
      simp at hv
    | some d =>
      have hdws : d.isWhitespace = false := head?_dropWhile_not hd
      rw [hv, hd] at hlast1
      rw [List.head?_reverse, List.getLast?_reverse, hlast1]
      simp [hc, hdws]

theorem noEdgeWS_jsTrim (s : String) : noEdgeWS (jsTrim s).data = true :=
  noEdgeWS_trimChars s.data

theorem mem_setProp {p : String × JsValue} :
    ∀ {r : RawRecord} {k : String} {v : JsValue}, p ∈ setProp r k v → p = (k, v) ∨ p ∈ r := by
  intro r
  induction r with
  | nil =>
    intro k v h
    simp only [setProp, List.mem_singleton] at h
    exact Or.inl h
  | cons q r ih =>
    intro k v h
    simp only [setProp] at h
    by_cases hq : (q.1 == k) = true
    · rw [if_pos hq] at h
      rcases List.mem_cons.mp h with h | h
      · exact Or.inl h
      · exact Or.inr (List.mem_cons.mpr (Or.inr h))
    · rw [if_neg hq] at h
      rcases List.mem_cons.mp h with h | h
      · exact Or.inr (List.mem_cons.mpr (Or.inl h))
      · rcases ih h with h | h
        · exact Or.inl h
        · exact Or.inr (List.mem_cons.mpr (Or.inr h))

theorem mem_foldl_setProp {p : String × JsValue} :
    ∀ (l : List (String × String)) (acc : RawRecord),
      p ∈ l.foldl (fun r q => setProp r q.1 (.vStr q.2)) acc →
      p ∈ acc ∨ ∃ q ∈ l, p = (q.1, .vStr q.2) := by
  intro l
  induction l with
  | nil =>
    intro acc h
    exact Or.inl h
  | cons q l ih =>
    intro acc h
    rcases ih (setProp acc q.1 (.vStr q.2)) h with h | h
    · rcases mem_setProp h with h | h
      · exact Or.inr ⟨q, by simp, h⟩
      · exact Or.inl h
    · obtain ⟨q', hq', hpq⟩ := h
      exact Or.inr ⟨q', by simp [hq'], hpq⟩

theorem mem_mkRecord {headers values : List String} {p : String × JsValue}
    (h : p ∈ mkRecord headers values) :
    (∃ hd ∈ headers, p.1 = hd) ∧ (∃ v ∈ values, p.2 = .vStr v) := by
  rcases mem_foldl_setProp (headers.zip values) [] h with h | h
  · exact absurd h (List.not_mem_nil p)
  · obtain ⟨q, hq, hpq⟩ := h
    obtain ⟨q1, q2⟩ := q
    have hmem := List.of_mem_zip hq
    rw [hpq]
    exact ⟨⟨q1, hmem.1, rfl⟩, ⟨q2, hmem.2, rfl⟩⟩

/-! ### Claim C1 -/

/-- C1: the delimited-text import parser (the robust `parseCSV` of the revised
file) handles quoted fields, commas inside quotes, and doubled-quote escaping:
parsing `website,username,password\nExample.com,"user,one","pa""ss"` yields
exactly one record, whose website is `Example.com`, username `user,one`, and
password `pa"ss`. -/
theorem parseCSV_quoted_example :
    parseCSV exQuotedCsv = [exQuotedRecord] ∧
    getProp exQuotedRecord "website" = .vStr "Example.com" ∧
    getProp exQuotedRecord "username" = .vStr "user,one" ∧
    getProp exQuotedRecord "password" = .vStr "pa\"ss" := by
  decide

/-! ### Claim C2 -/

/-- C2 counterexample: updating an entry whose id is absent from the Cache
does issue a Store call, and the Store's contents change: with an empty Cache
and an empty Store, `updatePassword` on an entry with id 1 leaves the Cache
empty but upserts the entry into the Store (no EntryNotFound failure occurs,
contradicting the claim that no Store call is made). -/
theorem updatePassword_absent_writes_store :
    updatePassword exEntry1 [] emptyStore = ([], .ok ⟨[(.num 1, exEntry1)], 2⟩) ∧
    (⟨[(.num 1, exEntry1)], 2⟩ : IDBStore) ≠ emptyStore := by
  decide

/-- C2 (amended): for every entry whose id is absent from the Cache,
`updatePassword` leaves the Cache unchanged but still issues the Store `put`,
which upserts the entry into the Store under its id; no EntryNotFound failure
occurs. -/
theorem updatePassword_absent_spec :
    ∀ (entry : RawRecord) (cache : List RawRecord) (st : IDBStore) (k : Int),
      getProp entry "id" = .vNum k →
      (∀ r ∈ cache, jsStrictEq (getProp r "id") (getProp entry "id") = false) →
      updatePassword entry cache st = (cache, putRecord st entry) ∧
      ∃ st', putRecord st entry = .ok st' ∧ lookupKey st' (.num k) = some entry := by
  intro entry cache st k hid habs
  refine ⟨?_, putRecord_num hid st⟩
  simp only [updatePassword, replaceById_absent habs]

/-- C2 witness: the amended statement evaluated on an entry with id 1, an
empty Cache and an empty Store. -/
theorem updatePassword_absent_spec_witness :
    getProp exEntry1 "id" = .vNum 1 ∧
    (updatePassword exEntry1 [] emptyStore = ([], putRecord emptyStore exEntry1) ∧
      ∃ st', putRecord emptyStore exEntry1 = .ok st' ∧
        lookupKey st' (.num 1) = some exEntry1) :=
  ⟨by decide,
    updatePassword_absent_spec exEntry1 [] emptyStore 1 (by decide)
      (fun r hr => absurd hr (List.not_mem_nil r))⟩

/-! ### Claim C3 -/

/-- C3: for every nonempty Cache (an empty Cache refuses to export, see C10),
the delimited-text export emits the header `website,username,password`
followed by one row per entry joined by CRLF, and a field is wrapped in quotes
with internal quotes doubled exactly when it contains a quote, comma, or
newline, being emitted verbatim otherwise. -/
theorem exportToCSV_format :
    ∀ (cache : List RawRecord), cache ≠ [] →
      exportToCSV cache =
        .file (joinSep "\r\n" ("website,username,password" ::
          cache.map (fun r =>
            joinSep "," [csvEscape (getProp r "website"), csvEscape (getProp r "username"),
              csvEscape (getProp r "password")]))) ∧
      ∀ s : String,
        (hasCsvSpecial s = true →
          csvEscape (.vStr s) = String.mk ('"' :: (doubleQuoteChars s.data ++ ['"']))) ∧
        (hasCsvSpecial s = false → csvEscape (.vStr s) = s) := by
  intro cache h
  constructor
  · have hne : cache.isEmpty = false := by
      cases cache with
      | nil => exact absurd rfl h
      | cons a t => rfl
    simp only [exportToCSV, hne, Bool.false_eq_true, if_false]
    have hh : joinSep "," ["website", "username", "password"] = "website,username,password" := by
      decide
    rw [hh]
    rfl
  · intro s
    constructor
    · intro hs
      show (if hasCsvSpecial s then String.mk ('"' :: (doubleQuoteChars s.data ++ ['"'])) else s) =
        String.mk ('"' :: (doubleQuoteChars s.data ++ ['"']))
      rw [if_pos hs]
    · intro hs
      show (if hasCsvSpecial s then String.mk ('"' :: (doubleQuoteChars s.data ++ ['"'])) else s) = s
      rw [if_neg (by simp [hs])]

/-- C3 witness: the format statement evaluated on the one-record cache holding
the quoted example entry. -/
theorem exportToCSV_format_witness :
    ([exQuotedRecord] : List RawRecord) ≠ [] ∧
    exportToCSV [exQuotedRecord] =
      .file "website,username,password\r\nExample.com,\"user,one\",\"pa\"\"ss\"" := by
  refine ⟨by decide, ?_⟩
  exact ((exportToCSV_format [exQuotedRecord] (by decide)).1).trans (by decide)

/-! ### Claim C4 -/

/-- C4 counterexample: importing a valid record that carries `id: 42` into an
empty Store stores it under key 42, the identifier taken from the source
text, not under a fresh store-assigned id (which would have been 1). -/
theorem importRecords_uses_source_id :
    importRecords [exRecord42] emptyStore [] =
      (.success 1, ⟨[(.num 42, exRecord42)], 43⟩, [exRecord42]) ∧
    getProp exRecord42 "id" = .vNum 42 ∧
    lookupKey ⟨[(.num 42, exRecord42)], 43⟩ (.num 42) = some exRecord42 := by
  decide

/-- C4 (amended): each valid imported record is submitted as an add, but the
Store assigns a fresh id exactly when the record carries no id field; a record
carrying a numeric id not yet in the Store enters the Store under that source
identifier, so imported ids are reused, not ignored. -/
theorem importRecords_id_assignment :
    ∀ (r : RawRecord) (st : IDBStore) (cache : List RawRecord),
      validRecord r = true → genInv st →
      (∀ k : Int, getProp r "id" = .vNum k → hasKey st (.num k) = false →
        importRecords [r] st cache =
          (.success 1, ⟨st.recs ++ [(.num k, r)], bumpGen st.keyGen (.num k)⟩,
            getAllRecords ⟨st.recs ++ [(.num k, r)], bumpGen st.keyGen (.num k)⟩)) ∧
      (getProp r "id" = .vUndefined →
        importRecords [r] st cache =
          (.success 1,
            ⟨st.recs ++ [(.num st.keyGen, setProp r "id" (.vNum st.keyGen))], st.keyGen + 1⟩,
            getAllRecords
              ⟨st.recs ++ [(.num st.keyGen, setProp r "id" (.vNum st.keyGen))],
                st.keyGen + 1⟩)) := by
  intro r st cache hv hinv
  have hfilter : [r].filter validRecord = [r] := by simp [hv]
  constructor
  · intro k hid hfree
    have hek : evalKeyPath r = .useKey (.num k) := by simp [evalKeyPath, hid]
    simp [importRecords, hfilter, addAll, addRecord, hek, hfree]
  · intro hid
    have hek : evalKeyPath r = .generated := by simp [evalKeyPath, hid]
    have hfree : hasKey st (.num st.keyGen) = false := genInv_hasKey hinv
    simp [importRecords, hfilter, addAll, addRecord, hek, hfree]

/-- C4 witness: the amended statement evaluated on the record carrying id 42
and the empty store. -/
theorem importRecords_id_assignment_witness :
    validRecord exRecord42 = true ∧
    importRecords [exRecord42] emptyStore [] =
      (.success 1, ⟨[(.num 42, exRecord42)], 43⟩, [exRecord42]) := by
  refine ⟨by decide, ?_⟩
  have h := (importRecords_id_assignment exRecord42 emptyStore [] (by decide)
    (fun p hp => absurd hp (List.not_mem_nil p))).1 42 (by decide) (by decide)
  exact h.trans (by decide)

/-! ### Claim C5 -/

/-- C5 counterexample: on two entries with equal case-insensitive sort keys
(both websites `a.com`), toggling the direction does not reverse the order:
the stable sort keeps ties in their cache order in both directions, so the
descending result differs from the reverse of the ascending result. -/
theorem sort_toggle_ties_not_reversed :
    sortKey "website" exTie1 = sortKey "website" exTie2 ∧
    sortPasswords "website" .desc (sortPasswords "website" .asc [exTie1, exTie2]) ≠
      (sortPasswords "website" .asc [exTie1, exTie2]).reverse := by
  decide

/-- C5 (amended): for any list of entries, any column and direction, sorting
twice with the same column and direction equals sorting once; entries with
equal case-insensitive keys preserve their relative input order (stability,
stated per key as a filter equation); and toggling the direction exactly
reverses the order whenever all keys are pairwise distinct — with ties the
toggled sort keeps tied entries in stable order rather than reversing them. -/
theorem sortPasswords_props :
    ∀ (l : List RawRecord) (col : String) (dir : SortDir),
      sortPasswords col dir (sortPasswords col dir l) = sortPasswords col dir l ∧
      (∀ k : String,
        (sortPasswords col dir l).filter (fun e => decide (sortKey col e = k)) =
          l.filter (fun e => decide (sortKey col e = k))) ∧
      (l.Pairwise (fun a b => sortKey col a ≠ sortKey col b) →
        sortPasswords col (toggleDir dir) (sortPasswords col dir l) =
          (sortPasswords col dir l).reverse) := by
  intro l col dir
  have htot : ∀ a b, recLe col dir a b = true ∨ recLe col dir b a = true :=
    fun a b => recLe_total col dir a b
  have htrans : ∀ a b c, recLe col dir a b = true → recLe col dir b c = true →
      recLe col dir a c = true := fun a b c => recLe_trans col dir a b c
  refine ⟨?_, ?_, ?_⟩
  · exact sortBy_of_pairwise (sortBy_pairwise htot htrans l)
  · intro k
    exact sortBy_filter_key (sortKey col) (fun a b hf => recLe_key_ne col dir a b hf) k l
  · intro hpw
    have hs := sortBy_pairwise htot htrans l
    have hperm := sortBy_perm (recLe col dir) l
    have hpw' : (sortBy (recLe col dir) l).Pairwise
        (fun a b => sortKey col a ≠ sortKey col b) :=
      (List.Perm.pairwise_iff (fun {a b} hab => Ne.symm hab) hperm).mpr hpw
    have hanti : (sortBy (recLe col dir) l).Pairwise
        (fun a b => recLe col (toggleDir dir) a b = false) :=
      (hs.and hpw').imp (fun {a b} hab => recLe_toggle_false col dir a b hab.1 hab.2)
    exact sortBy_rev hanti

/-- C5 witness: the toggle-reversal conclusion evaluated on a two-entry cache
with distinct websites. -/
theorem sortPasswords_props_witness :
    ([exWebB, exTie1] : List RawRecord).Pairwise
      (fun a b => sortKey "website" a ≠ sortKey "website" b) ∧
    sortPasswords "website" .desc (sortPasswords "website" .asc [exWebB, exTie1]) =
      (sortPasswords "website" .asc [exWebB, exTie1]).reverse :=
  ⟨by decide, (sortPasswords_props [exWebB, exTie1] "website" .asc).2.2 (by decide)⟩

/-! ### Claim C6 -/

/-- C6 counterexample: the comparator does not coerce every non-string field
to the empty string before lowercasing: a truthy non-string value such as the
number 42 is string-coerced to `42`, not to the empty string the claim
prescribes. -/
theorem sortKey_nonstring_not_empty :
    sortKeyStr (.vNum 42) = "42" ∧ claimedSortKey (.vNum 42) = "" ∧
    sortKeyStr (.vNum 42) ≠ claimedSortKey (.vNum 42) := by
  decide

/-- C6 (amended): the comparator is total, so sorting never fails on a missing
or non-string field: a missing field sorts with the empty-string key, a falsy
field value is coerced to the empty string, and any truthy value (including
non-strings) is string-coerced and lowercased. -/
theorem comparator_total_spec :
    ∀ (a b : RawRecord) (col : String) (dir : SortDir),
      (recLe col dir a b = true ∨ recLe col dir b a = true) ∧
      (getProp a col = .vUndefined → sortKey col a = "") ∧
      (∀ v : JsValue, jsTruthy v = false → sortKeyStr v = "") ∧
      (∀ v : JsValue, jsTruthy v = true → sortKeyStr v = jsToLower (jsToString v)) := by
  intro a b col dir
  refine ⟨recLe_total col dir a b, ?_, ?_, ?_⟩
  · intro h
    simp only [sortKey]
    rw [h]
    decide
  · intro v h
    simp only [sortKeyStr, h, Bool.false_eq_true, if_false]
    decide
  · intro v h
    simp only [sortKeyStr, h, if_true]

/-- C6 witness: the missing-field conclusion evaluated on the empty record. -/
theorem comparator_total_spec_witness :
    getProp ([] : RawRecord) "website" = .vUndefined ∧
    sortKey "website" ([] : RawRecord) = "" :=
  ⟨by decide, (comparator_total_spec [] [] "website" .asc).2.1 (by decide)⟩

/-! ### Claim C7 -/

/-- C7 counterexample: Filter with a blank term does mutate the Cache when the
Cache is not in the current sort order: on the cache `[b.com, a.com]` with
ascending website order active, `filterPasswords ""` falls through to the
sticky sort and reorders the cache. -/
theorem filter_blank_resorts_unsorted_cache :
    (filterPasswords "" "website" .asc [exWebB, exTie1]).1 = [exTie1, exWebB] ∧
    (filterPasswords "" "website" .asc [exWebB, exTie1]).1 ≠ [exWebB, exTie1] := by
  decide

/-- C7 (amended): for every Cache already in its current sorted order (the
state the system maintains after load, add, and sort) and every search term,
Filter leaves the Cache unchanged, applying Filter(term) and then Filter("")
renders exactly the pre-filter sorted Cache order, and the rendered filtered
list is a subsequence of the Cache in its current order. -/
theorem filterPasswords_nondestructive :
    ∀ (cache : List RawRecord) (col : String) (dir : SortDir) (term : String),
      sortPasswords col dir cache = cache →
      (filterPasswords term col dir cache).1 = cache ∧
      (filterPasswords "" col dir ((filterPasswords term col dir cache).1)).1 = cache ∧
      ((filterPasswords term col dir cache).2).Sublist cache := by
  intro cache col dir term h
  have hblank : jsTrim (jsToLower "") = "" := by decide
  by_cases ht : jsTrim (jsToLower term) = ""
  · have h1 : (filterPasswords term col dir cache).1 = cache := by
      simp [filterPasswords, ht, h]
    have h2 : (filterPasswords term col dir cache).2 = cache := by
      simp [filterPasswords, ht, h]
    refine ⟨h1, ?_, ?_⟩
    · rw [h1]
      simp [filterPasswords, hblank, h]
    · rw [h2]
  · have h1 : (filterPasswords term col dir cache).1 = cache := by
      simp [filterPasswords, ht]
    have h2 : (filterPasswords term col dir cache).2 =
        cache.filter (filterMatch (jsTrim (jsToLower term))) := by
      simp [filterPasswords, ht]
    refine ⟨h1, ?_, ?_⟩
    · rw [h1]
      simp [filterPasswords, hblank, h]
    · rw [h2]
      exact List.filter_sublist cache

/-- C7 witness: the non-destructiveness statement evaluated on a sorted
two-entry cache and the term `a.c`. -/
theorem filterPasswords_nondestructive_witness :
    sortPasswords "website" .asc [exTie1, exWebB] = [exTie1, exWebB] ∧
    ((filterPasswords "a.c" "website" .asc [exTie1, exWebB]).1 = [exTie1, exWebB] ∧
      (filterPasswords "" "website" .asc
        ((filterPasswords "a.c" "website" .asc [exTie1, exWebB]).1)).1 = [exTie1, exWebB] ∧
      ((filterPasswords "a.c" "website" .asc [exTie1, exWebB]).2).Sublist [exTie1, exWebB]) :=
  ⟨by decide, filterPasswords_nondestructive [exTie1, exWebB] "website" .asc "a.c" (by decide)⟩

/-! ### Claim C8 -/

/-- C8: when every parsed candidate record fails validation (empty or missing
website, username, or password), the import reports "no valid entries" and
leaves both the Store and the Cache exactly as they were. -/
theorem importRecords_all_invalid :
    ∀ (records : List RawRecord) (st : IDBStore) (cache : List RawRecord),
      (∀ p ∈ records, validRecord p = false) →
      importRecords records st cache = (.noValidEntries, st, cache) := by
  intro records st cache h
  have hf : records.filter validRecord = [] :=
    List.filter_eq_nil_iff.mpr (fun a ha => by simp [h a ha])
  simp [importRecords, hf]

/-- C8 witness: an import consisting of one record with an empty website. -/
theorem importRecords_all_invalid_witness :
    (∀ p ∈ [exInvalidRecord], validRecord p = false) ∧
    importRecords [exInvalidRecord] emptyStore [] = (.noValidEntries, emptyStore, []) :=
  ⟨by decide, importRecords_all_invalid [exInvalidRecord] emptyStore [] (by decide)⟩

/-! ### Claim C9 -/

/-- C9: the naive delimited-text parser of `script.js` trims surrounding
whitespace from every header and every field value of every data row: every
property of every record it produces has a whitespace-free boundary on both
its name and its (string) value, so a password or username with surrounding
spaces in the file is stored with those spaces removed, not verbatim. -/
theorem parseCSVNaive_trims :
    ∀ (csv : String) (r : RawRecord) (p : String × JsValue),
      r ∈ parseCSVNaive csv → p ∈ r →
      noEdgeWS p.1.data = true ∧ ∃ s : String, p.2 = .vStr s ∧ noEdgeWS s.data = true := by
  intro csv r p hr hp
  revert hr
  unfold parseCSVNaive
  cases hsplit : splitOnChar '\n' csv.data with
  | nil =>
    intro hr
    exact absurd hr (List.not_mem_nil r)
  | cons headerLine dataLines =>
    intro hr
    obtain ⟨line, hline, hfl⟩ := List.mem_filterMap.mp hr
    dsimp only [] at hfl
    split at hfl
    · rw [Option.some.injEq] at hfl
      rw [← hfl] at hp
      obtain ⟨⟨hd, hhd, hp1⟩, ⟨v, hv, hp2⟩⟩ := mem_mkRecord hp
      obtain ⟨f1, hf1, hdf⟩ := List.mem_map.mp hhd
      obtain ⟨f2, hf2, hvf⟩ := List.mem_map.mp hv
      constructor
      · rw [hp1, ← hdf]
        exact noEdgeWS_jsTrim (String.mk f1)
      · exact ⟨v, hp2, by rw [← hvf]; exact noEdgeWS_jsTrim (String.mk f2)⟩
    · exact Option.noConfusion hfl

/-- C9 witness: the trimming statement evaluated on a file whose username and
password carry surrounding spaces. -/
theorem parseCSVNaive_trims_witness :
    exNaiveRecord ∈ parseCSVNaive exNaiveCsv ∧
    (("password", JsValue.vStr "pw") ∈ exNaiveRecord) ∧
    (noEdgeWS ("password", JsValue.vStr "pw").1.data = true ∧
      ∃ s : String, ("password", JsValue.vStr "pw").2 = .vStr s ∧ noEdgeWS s.data = true) :=
  ⟨by decide, by decide,
    parseCSVNaive_trims exNaiveCsv exNaiveRecord ("password", JsValue.vStr "pw")
      (by decide) (by decide)⟩

/-! ### Claim C10 -/

/-- C10: with an empty Cache, both exports refuse to produce a file: the JSON
export and the delimited-text export each report "No passwords to export" and
return without serializing anything (being pure views of the cache, they
change no state). -/
theorem export_empty_refuses :
    exportPasswords [] = .noPasswords ∧ exportToCSV [] = .noPasswords := by
  decide

end LocalVault
